import Mathlib

/-!
Verification of the windowing-engine specification for the "Tour of Beam"
notebook repository.

The notebooks are thin clients of an external data-processing framework: the
windowing engine itself (WindowAssigner, WindowAccumulator, WindowEmitter of
spec sections 2-4) is not present under `src/`; the notebooks only invoke the
framework's `FixedWindows`, `SlidingWindows` and `Sessions` strategies.  Those
components are therefore modelled here from the specification's own words.
Two pieces of genuine repository code are embedded directly from the source:
`split_dataset` (rwData.ipynb) and `SplitWords.process` (beamParDo.ipynb).

Timestamps are integers (spec section 3).  A window is a half-open interval
`[start, stop)` of timestamps (the spec writes `end` for `stop`; `end` is a
Lean keyword).
-/

namespace TourOfBeam

/-- Modelled from the spec: a `Window` is a half-open interval `[start, end)`
of integer timestamps (spec section 3); the field `stop` plays the role of the
spec's `end`. -/
structure IWindow where
  start : Int
  stop : Int
deriving DecidableEq

/-- Modelled from the spec: two intervals "overlap or abut" (spec section 4.2)
exactly when neither lies strictly beyond the other; for half-open intervals
this is `u.start ≤ v.end ∧ v.start ≤ u.end`, which counts a shared endpoint
(a gap of zero) as touching. -/
def touches (u v : IWindow) : Prop :=
  u.start ≤ v.stop ∧ v.start ≤ u.stop

instance (u v : IWindow) : Decidable (touches u v) := by
  unfold touches; exact inferInstance

/-- Strict overlap of two half-open intervals (used to relate `touches` to the
spec's "overlapping or abutting" phrasing). -/
def overlaps (u v : IWindow) : Prop :=
  max u.start v.start < min u.stop v.stop

/-- Exact adjacency: one interval's `end` equals the other's `start`
(spec section 4.2's tie-break case). -/
def abuts (u v : IWindow) : Prop :=
  u.stop = v.start ∨ v.stop = u.start

/-- Modelled from the spec: the enumerated windowing strategies
`Fixed(width)`, `Sliding(width, period)`, `Session(gap)` (spec section 6).
The `Global` strategy has no parameters and is exercised by no claim, so it is
omitted from the embedding. -/
inductive Strategy where
  | fixed (W : Int)
  | sliding (W P : Int)
  | session (G : Int)
deriving DecidableEq

/-- Modelled from the spec: `ConfigError`, raised for invalid strategy
parameters (spec section 7). -/
inductive ConfigError where
  | badParam
deriving DecidableEq

/-- Modelled from the spec: `ClosedError`, raised by `assign()` after
`finalize()` (spec section 7). -/
inductive ClosedError where
  | closed
deriving DecidableEq

/-- Modelled from the spec: configuration validation.  Only non-positive
width/period/gap values are invalid (spec section 7): `Fixed` fails iff
`W ≤ 0`, `Sliding` fails iff `W ≤ 0` or `P ≤ 0`, `Session` fails iff
`G ≤ 0`.  `period > width` is a valid degenerate case. -/
def checkConfig : Strategy → Except ConfigError Unit
  | .fixed W => if W ≤ 0 then .error .badParam else .ok ()
  | .sliding W P => if W ≤ 0 ∨ P ≤ 0 then .error .badParam else .ok ()
  | .session G => if G ≤ 0 then .error .badParam else .ok ()

/-- The fixed window with index `n` for width `W`: `[n*W, (n+1)*W)`
(spec section 4.1, with offset `O = 0`). -/
def fixedWindow (W n : Int) : IWindow :=
  ⟨n * W, (n + 1) * W⟩

/-- Ceiling division for positive integers, `⌈a / b⌉`, as used by the spec's
sliding-window count `ceil(W/P)` (spec section 4.1). -/
def ceilDiv (a b : Int) : Int :=
  (a + b - 1) / b

/-- Modelled from the spec: the `WindowAssigner` (spec section 4.1), a pure
function from a strategy and a timestamp to the list of windows the record
belongs to.
* `Fixed(W)`: exactly one window `[n*W, (n+1)*W)` with `n = floor(t / W)`
  (`Int.fdiv` is floor division).
* `Sliding(W, P)`: all windows `[k*P, k*P+W)` with `k` ranging over the
  integers such that `k*P ≤ t < k*P + W`; these are exactly the `k` with
  `floor((t-W)/P) < k ≤ floor(t/P)`, enumerated in increasing order.
* `Session(G)`: the single provisional window `[t, t+G)`; merging is deferred
  to the accumulator. -/
def assignWindows : Strategy → Int → List IWindow
  | .fixed W, t => [fixedWindow W (t.fdiv W)]
  | .sliding W P, t =>
      (List.range (t.fdiv P - (t - W).fdiv P).toNat).map fun (i : Nat) =>
        ⟨((t - W).fdiv P + 1 + (i : Int)) * P,
         ((t - W).fdiv P + 1 + (i : Int)) * P + W⟩
  | .session G, t => [⟨t, t + G⟩]

/-- The evolving per-window record counts held by the accumulator: a finite
set of `(window, count)` pairs (spec section 3's `WindowState`, with the
reference count aggregate of spec section 4.3). -/
abbrev WindowState := Finset (IWindow × ℕ)

/-- The open windows whose interval overlaps or abuts `w` (the windows the
session merge of spec section 4.2 absorbs when `w` arrives). -/
def hitsOf (w : IWindow) (st : WindowState) : WindowState :=
  st.filter fun wc => touches w wc.1

/-- The open windows untouched by `w` (kept as they are by the merge). -/
def missOf (w : IWindow) (st : WindowState) : WindowState :=
  st.filter fun wc => ¬ touches w wc.1

/-- The merged window produced when `w` (carrying one new record) is combined
with every open window it touches: the interval `[min(starts), max(ends))`
over `w` and the absorbed windows, counting the new record plus all absorbed
records (spec section 4.2). -/
def mergedOf (w : IWindow) (st : WindowState) : IWindow × ℕ :=
  (⟨(hitsOf w st).fold min w.start fun wc => wc.1.start,
    (hitsOf w st).fold max w.stop fun wc => wc.1.stop⟩,
   1 + (hitsOf w st).sum fun wc => wc.2)

/-- Modelled from the spec: one session-merge step of the `WindowAccumulator`
(spec section 4.2).  Inserting a window `w` (carrying one new record) merges
`w` with every open window whose extended interval overlaps or abuts it into
the single interval `[min(starts), max(ends))`; all untouched windows are
kept.  Because the state is kept pairwise non-touching, one sweep performs
the transitive re-test demanded by the spec. -/
def sessionStep (w : IWindow) (st : WindowState) : WindowState :=
  insert (mergedOf w st) (missOf w st)

/-- Modelled from the spec: the non-merging accumulator step for fixed and
sliding windows (spec section 4.2): create a new entry with count 1 if the
window is absent, otherwise increment its count. -/
def bumpWindow (w : IWindow) (st : WindowState) : WindowState :=
  insert (w, 1 + (st.filter fun wc => wc.1 = w).sum fun wc => wc.2)
    (st.filter fun wc => wc.1 ≠ w)

/-- Modelled from the spec: how the accumulator folds one assigned window into
its state, per strategy (session windows merge, others bump a count). -/
def stepWindow : Strategy → WindowState → IWindow → WindowState
  | .session _, st, w => sessionStep w st
  | .fixed _, st, w => bumpWindow w st
  | .sliding _ _, st, w => bumpWindow w st

/-- Modelled from the spec: processing one timestamped record — run the
`WindowAssigner`, then fold every produced window into the accumulator
state (spec section 2's data flow). -/
def accumulate (s : Strategy) (st : WindowState) (t : Int) : WindowState :=
  (assignWindows s t).foldl (stepWindow s) st

/-- Modelled from the spec: the `WindowAccumulator` for one grouping key —
its window state plus the terminal `closed` flag set by `finalize()`
(spec sections 4.2 and 4.3). -/
structure Accumulator where
  strat : Strategy
  state : WindowState
  closed : Bool

/-- Modelled from the spec: `assign(record)` — fails with `ClosedError` and
leaves the accumulator untouched when `finalize()` has already been called,
otherwise folds the record's windows into the state (spec sections 4.2, 4.3
and 7). -/
def Accumulator.assign (acc : Accumulator) (t : Int) :
    Option ClosedError × Accumulator :=
  if acc.closed then (some .closed, acc)
  else (none, { acc with state := accumulate acc.strat acc.state t })

/-- Modelled from the spec: the `WindowEmitter`'s `finalize()` — emit every
`(window, count)` pair held by the accumulator and close it
(spec section 4.3). -/
def Accumulator.finalize (acc : Accumulator) : WindowState × Accumulator :=
  (acc.state, { acc with closed := true })

/-- A fresh accumulator for a strategy. -/
def newAccumulator (s : Strategy) : Accumulator :=
  ⟨s, ∅, false⟩

/-- Modelled from the spec: the full single-pass pipeline — assign and
accumulate every record of a finite batch, then finalize and emit the
per-window aggregates (spec section 2). -/
def runPipeline (s : Strategy) (ts : List Int) : WindowState :=
  ((ts.foldl (fun acc t => (acc.assign t).2) (newAccumulator s)).finalize).1

/-- The accumulator invariant maintained by session merging: every open
window is a nonempty interval, and no two distinct open windows touch
(they have been merged until "no further merge applies", spec section 4.2). -/
def SepState (st : WindowState) : Prop :=
  (∀ wc ∈ st, wc.1.start < wc.1.stop) ∧
    ∀ wc ∈ st, ∀ vc ∈ st, wc ≠ vc → ¬ touches wc.1 vc.1

instance (st : WindowState) : Decidable (SepState st) := by
  unfold SepState; exact inferInstance

/-! ### Repository code embedded from the source -/

/-- The cumulative-total loop of `split_dataset` (src/rwData.ipynb):
`for i, part in enumerate(ratio): total += part; if bucket < total: return i`.
Returns `none` when the loop falls through without returning. -/
def split_dataset_loop (bucket : Int) (total : Int) (i : Nat) :
    List Int → Option Nat
  | [] => none
  | part :: rest =>
    if bucket < total + part then some i
    else split_dataset_loop bucket (total + part) (i + 1) rest

/-- `split_dataset(plant, num_partitions, ratio)` from src/rwData.ipynb.
The plant element enters only through `sum(map(ord, json.dumps(plant)))`, so
it is represented by the list `plantOrds` of code points of its JSON encoding.
Python's `%` is floored modulus, i.e. `Int.fmod`.  The `assert` failure is
modelled as `none`; the trailing `return len(ratio) - 1` is the fallback when
the loop falls through. -/
def split_dataset (plantOrds : List Nat) (num_partitions : Nat)
    (ratios : List Int) : Option Nat :=
  if num_partitions = ratios.length then
    let bucket := Int.fmod (plantOrds.map fun (c : Nat) => (c : Int)).sum ratios.sum
    match split_dataset_loop bucket 0 0 ratios with
    | some i => some i
    | none => some (ratios.length - 1)
  else none

/-- `s` starts with `sep` (Python's substring test at the current scan
position of `str.split`). -/
def startsWith (sep s : List Char) : Bool :=
  decide (s.take sep.length = sep)

/-- Python's `text.split(sep)` for a nonempty separator `sep`, on exploded
strings, with explicit structural fuel (the fuel is adequate whenever it is at
least `s.length`): scan left to right; each non-overlapping occurrence of
`sep` ends the current piece. `''.split(sep) == ['']`, so the empty text
yields one empty piece. -/
def pySplitFuel (sep : List Char) : Nat → List Char → List (List Char)
  | _, [] => [[]]
  | 0, s => [s]
  | fuel + 1, c :: rest =>
    if startsWith sep (c :: rest) then
      [] :: pySplitFuel sep fuel (rest.drop (sep.length - 1))
    else
      match pySplitFuel sep fuel rest with
      | [] => [[c]]
      | w :: ws => (c :: w) :: ws

/-- Python's `text.split(sep)` for a nonempty separator, on exploded
strings. -/
def pySplit (sep s : List Char) : List (List Char) :=
  pySplitFuel sep s.length s

/-- The `SplitWords` DoFn of src/beamParDo.ipynb: it stores a delimiter
string (Python default `','`). -/
structure SplitWords where
  delimiter : List Char

/-- `SplitWords.process(text)` (src/beamParDo.ipynb): `ParDo` emits one
output element per item of `text.split(self.delimiter)`, in order, modelled as
the emitted list.  Python's `str.split` raises `ValueError` on an empty
separator, modelled as `none`. -/
def SplitWords.process (f : SplitWords) (text : List Char) :
    Option (List (List Char)) :=
  if f.delimiter = [] then none
  else some (pySplit f.delimiter text)

/-! ### Folds of `min`/`max` over a `Finset`: bounds, attainment, unions -/

theorem fold_min_le_base {α : Type} (s : Finset α) (b : Int) (f : α → Int) :
    s.fold min b f ≤ b :=
  (Finset.fold_min_le _).mpr (Or.inl le_rfl)

theorem fold_min_le_mem {α : Type} {s : Finset α} {x : α} (hx : x ∈ s)
    (b : Int) (f : α → Int) : s.fold min b f ≤ f x :=
  (Finset.fold_min_le _).mpr (Or.inr ⟨x, hx, le_rfl⟩)

theorem fold_min_attained {α : Type} (s : Finset α) (b : Int) (f : α → Int) :
    s.fold min b f = b ∨ ∃ x ∈ s, s.fold min b f = f x := by
  rcases (Finset.fold_min_le _).mp (le_refl (s.fold min b f)) with h | ⟨x, hx, h⟩
  · exact Or.inl (le_antisymm (fold_min_le_base s b f) h)
  · exact Or.inr ⟨x, hx, le_antisymm (fold_min_le_mem hx b f) h⟩

theorem base_le_fold_max {α : Type} (s : Finset α) (b : Int) (f : α → Int) :
    b ≤ s.fold max b f :=
  (Finset.le_fold_max _).mpr (Or.inl le_rfl)

theorem mem_le_fold_max {α : Type} {s : Finset α} {x : α} (hx : x ∈ s)
    (b : Int) (f : α → Int) : f x ≤ s.fold max b f :=
  (Finset.le_fold_max _).mpr (Or.inr ⟨x, hx, le_rfl⟩)

theorem fold_max_attained {α : Type} (s : Finset α) (b : Int) (f : α → Int) :
    s.fold max b f = b ∨ ∃ x ∈ s, s.fold max b f = f x := by
  rcases (Finset.le_fold_max _).mp (le_refl (s.fold max b f)) with h | ⟨x, hx, h⟩
  · exact Or.inl (le_antisymm h (base_le_fold_max s b f))
  · exact Or.inr ⟨x, hx, le_antisymm h (mem_le_fold_max hx b f)⟩

theorem fold_min_base_min {α : Type} [DecidableEq α] (s : Finset α)
    (c b : Int) (f : α → Int) : s.fold min (min c b) f = min c (s.fold min b f) := by
  induction s using Finset.induction_on with
  | empty => simp
  | insert hx ih =>
    rw [Finset.fold_insert hx, Finset.fold_insert hx, ih, min_left_comm]

theorem fold_max_base_max {α : Type} [DecidableEq α] (s : Finset α)
    (c b : Int) (f : α → Int) : s.fold max (max c b) f = max c (s.fold max b f) := by
  induction s using Finset.induction_on with
  | empty => simp
  | insert hx ih =>
    rw [Finset.fold_insert hx, Finset.fold_insert hx, ih, max_left_comm]

theorem fold_min_union {α : Type} [DecidableEq α] (t : Finset α) (b c : Int)
    (f : α → Int) :
    ∀ s : Finset α, Disjoint s t →
      (s ∪ t).fold min (min b c) f = min (s.fold min b f) (t.fold min c f) := by
  intro s
  induction s using Finset.induction_on with
  | empty =>
    intro _
    rw [Finset.empty_union, Finset.fold_empty, fold_min_base_min]
  | insert hx ih =>
    intro hdisj
    rcases Finset.disjoint_insert_left.mp hdisj with ⟨hat, hst⟩
    have hnotin : _ ∉ _ ∪ t := fun hmem =>
      (Finset.mem_union.mp hmem).elim hx hat
    rw [Finset.insert_union, Finset.fold_insert hnotin, ih hst,
      Finset.fold_insert hx, min_assoc]

theorem fold_max_union {α : Type} [DecidableEq α] (t : Finset α) (b c : Int)
    (f : α → Int) :
    ∀ s : Finset α, Disjoint s t →
      (s ∪ t).fold max (max b c) f = max (s.fold max b f) (t.fold max c f) := by
  intro s
  induction s using Finset.induction_on with
  | empty =>
    intro _
    rw [Finset.empty_union, Finset.fold_empty, fold_max_base_max]
  | insert hx ih =>
    intro hdisj
    rcases Finset.disjoint_insert_left.mp hdisj with ⟨hat, hst⟩
    have hnotin : _ ∉ _ ∪ t := fun hmem =>
      (Finset.mem_union.mp hmem).elim hx hat
    rw [Finset.insert_union, Finset.fold_insert hnotin, ih hst,
      Finset.fold_insert hx, max_assoc]

/-! ### Basic facts about `touches`, `hitsOf`, `missOf`, `mergedOf` -/

theorem touches_comm {u v : IWindow} : touches u v ↔ touches v u :=
  And.comm

theorem mem_hitsOf {w : IWindow} {st : WindowState} {wc : IWindow × ℕ} :
    wc ∈ hitsOf w st ↔ wc ∈ st ∧ touches w wc.1 :=
  Finset.mem_filter

theorem mem_missOf {w : IWindow} {st : WindowState} {wc : IWindow × ℕ} :
    wc ∈ missOf w st ↔ wc ∈ st ∧ ¬ touches w wc.1 :=
  Finset.mem_filter

theorem mergedOf_start_le (w : IWindow) (st : WindowState) :
    (mergedOf w st).1.start ≤ w.start :=
  fold_min_le_base _ _ _

theorem mergedOf_start_le_of_mem {w : IWindow} {st : WindowState}
    {wc : IWindow × ℕ} (h : wc ∈ hitsOf w st) :
    (mergedOf w st).1.start ≤ wc.1.start :=
  fold_min_le_mem h _ _

theorem le_mergedOf_stop (w : IWindow) (st : WindowState) :
    w.stop ≤ (mergedOf w st).1.stop :=
  base_le_fold_max _ _ _

theorem le_mergedOf_stop_of_mem {w : IWindow} {st : WindowState}
    {wc : IWindow × ℕ} (h : wc ∈ hitsOf w st) :
    wc.1.stop ≤ (mergedOf w st).1.stop :=
  mem_le_fold_max h _ _

theorem mergedOf_start_attained (w : IWindow) (st : WindowState) :
    (mergedOf w st).1.start = w.start ∨
      ∃ wc ∈ hitsOf w st, (mergedOf w st).1.start = wc.1.start :=
  fold_min_attained _ _ _

theorem mergedOf_stop_attained (w : IWindow) (st : WindowState) :
    (mergedOf w st).1.stop = w.stop ∨
      ∃ wc ∈ hitsOf w st, (mergedOf w st).1.stop = wc.1.stop :=
  fold_max_attained _ _ _

/-- Any window touching `v`, or touching a window absorbed by `v`'s merge,
touches the merged window. -/
theorem touches_mergedOf_of_touches {u v : IWindow} {st : WindowState}
    (h : touches u v ∨ ∃ wc ∈ hitsOf v st, touches u wc.1) :
    touches u (mergedOf v st).1 := by
  rcases h with ⟨h1, h2⟩ | ⟨wc, hwc, h1, h2⟩
  · exact ⟨le_trans h1 (le_mergedOf_stop v st),
      le_trans (mergedOf_start_le v st) h2⟩
  · exact ⟨le_trans h1 (le_mergedOf_stop_of_mem hwc),
      le_trans (mergedOf_start_le_of_mem hwc) h2⟩

/-- Conversely, a (nonempty) window touching the merged window touches `v`
itself or one of the windows absorbed by the merge. -/
theorem touches_mergedOf_cases {u v : IWindow} {st : WindowState}
    (hu : u.start ≤ u.stop) (h : touches u (mergedOf v st).1) :
    touches u v ∨ ∃ wc ∈ hitsOf v st, touches u wc.1 := by
  by_cases huv : touches u v
  · exact Or.inl huv
  right
  obtain ⟨h1, h2⟩ := h
  have huv' : v.stop < u.start ∨ u.stop < v.start := by
    unfold touches at huv; omega
  rcases huv' with hcase | hcase
  · rcases mergedOf_stop_attained v st with he | ⟨wc, hwc, he⟩
    · rw [he] at h1; omega
    · refine ⟨wc, hwc, he ▸ h1, ?_⟩
      have := (mem_hitsOf.mp hwc).2.2
      omega
  · rcases mergedOf_start_attained v st with hs | ⟨wc, hwc, hs⟩
    · rw [hs] at h2; omega
    · refine ⟨wc, hwc, ?_, hs ▸ h2⟩
      have := (mem_hitsOf.mp hwc).2.1
      omega

theorem IWindow.eq_of {a b : IWindow} (h1 : a.start = b.start)
    (h2 : a.stop = b.stop) : a = b := by
  cases a; cases b; cases h1; cases h2; rfl

theorem pair_eq {p q : IWindow × ℕ} (h1 : p.1 = q.1) (h2 : p.2 = q.2) :
    p = q := by
  cases p; cases q; cases h1; cases h2; rfl

@[simp] theorem mergedOf_fst_start (w : IWindow) (st : WindowState) :
    (mergedOf w st).1.start = (hitsOf w st).fold min w.start fun wc => wc.1.start :=
  rfl

@[simp] theorem mergedOf_fst_stop (w : IWindow) (st : WindowState) :
    (mergedOf w st).1.stop = (hitsOf w st).fold max w.stop fun wc => wc.1.stop :=
  rfl

@[simp] theorem mergedOf_snd (w : IWindow) (st : WindowState) :
    (mergedOf w st).2 = 1 + (hitsOf w st).sum fun wc => wc.2 :=
  rfl

/-! ### The session merge step preserves the separation invariant -/

/-- In a separated state, the merged window touches none of the windows the
merge keeps: one sweep has already performed the transitive re-test. -/
theorem not_touches_mergedOf_missOf {w : IWindow} {st : WindowState}
    (hst : SepState st) {vc : IWindow × ℕ} (hvc : vc ∈ missOf w st) :
    ¬ touches (mergedOf w st).1 vc.1 := by
  intro ht
  obtain ⟨hvalid, hpair⟩ := hst
  have hvmem := mem_missOf.mp hvc
  have hvv : vc.1.start ≤ vc.1.stop := (hvalid vc hvmem.1).le
  rcases touches_mergedOf_cases hvv (touches_comm.mp ht) with h | ⟨hc, hhc, h⟩
  · exact hvmem.2 (touches_comm.mp h)
  · have hhmem := mem_hitsOf.mp hhc
    have hne : vc ≠ hc := fun he => hvmem.2 (he ▸ hhmem.2)
    exact hpair vc hvmem.1 hc hhmem.1 hne h

theorem sepState_sessionStep {w : IWindow} {st : WindowState}
    (hw : w.start < w.stop) (hst : SepState st) :
    SepState (sessionStep w st) := by
  obtain ⟨hvalid, hpair⟩ := hst
  constructor
  · intro wc hwc
    rcases Finset.mem_insert.mp hwc with rfl | hmem
    · have h1 := mergedOf_start_le w st
      have h2 := le_mergedOf_stop w st
      omega
    · exact hvalid wc (mem_missOf.mp hmem).1
  · intro wc hwc vc hvc hne
    rcases Finset.mem_insert.mp hwc with rfl | hwc'
    · rcases Finset.mem_insert.mp hvc with rfl | hvc'
      · exact absurd rfl hne
      · exact not_touches_mergedOf_missOf ⟨hvalid, hpair⟩ hvc'
    · rcases Finset.mem_insert.mp hvc with rfl | hvc'
      · exact fun ht =>
          not_touches_mergedOf_missOf ⟨hvalid, hpair⟩ hwc' (touches_comm.mp ht)
      · exact hpair wc (mem_missOf.mp hwc').1 vc (mem_missOf.mp hvc').1 hne

/-- Every absorbed window disappears from the state produced by the merge
step (it is replaced by the strictly larger merged window). -/
theorem hit_not_mem_sessionStep {w : IWindow} {st : WindowState}
    {wc : IWindow × ℕ} (hwc : wc ∈ hitsOf w st) :
    wc ∉ sessionStep w st := by
  intro hmem
  rcases Finset.mem_insert.mp hmem with he | hmiss
  · have hle : wc.2 ≤ (hitsOf w st).sum fun vc => vc.2 :=
      Finset.single_le_sum (fun i _ => Nat.zero_le _) hwc
    have h2 : wc.2 = 1 + (hitsOf w st).sum fun vc => vc.2 := by
      rw [he, mergedOf_snd]
    omega
  · exact (mem_missOf.mp hmiss).2 (mem_hitsOf.mp hwc).2

/-! ### Two consecutive merge steps commute -/

theorem hitsOf_sessionStep_of_not_touches {u v : IWindow} {st : WindowState}
    (h : ¬ touches u (mergedOf v st).1) :
    hitsOf u (sessionStep v st) =
      st.filter fun wc => touches u wc.1 ∧ ¬ touches v wc.1 := by
  ext wc
  simp only [hitsOf, sessionStep, missOf, Finset.mem_filter, Finset.mem_insert]
  constructor
  · rintro ⟨rfl | ⟨hmem, hnv⟩, htu⟩
    · exact absurd htu h
    · exact ⟨hmem, htu, hnv⟩
  · rintro ⟨hmem, htu, hnv⟩
    exact ⟨Or.inr ⟨hmem, hnv⟩, htu⟩

theorem hitsOf_sessionStep_of_touches {u v : IWindow} {st : WindowState}
    (h : touches u (mergedOf v st).1) :
    hitsOf u (sessionStep v st) =
      insert (mergedOf v st)
        (st.filter fun wc => touches u wc.1 ∧ ¬ touches v wc.1) := by
  ext wc
  simp only [hitsOf, sessionStep, missOf, Finset.mem_filter, Finset.mem_insert]
  constructor
  · rintro ⟨rfl | ⟨hmem, hnv⟩, htu⟩
    · exact Or.inl rfl
    · exact Or.inr ⟨hmem, htu, hnv⟩
  · rintro (rfl | ⟨hmem, htu, hnv⟩)
    · exact ⟨Or.inl rfl, h⟩
    · exact ⟨Or.inr ⟨hmem, hnv⟩, htu⟩

theorem missOf_sessionStep_of_not_touches {u v : IWindow} {st : WindowState}
    (h : ¬ touches u (mergedOf v st).1) :
    missOf u (sessionStep v st) =
      insert (mergedOf v st)
        (st.filter fun wc => ¬ touches u wc.1 ∧ ¬ touches v wc.1) := by
  ext wc
  simp only [missOf, sessionStep, Finset.mem_filter, Finset.mem_insert]
  constructor
  · rintro ⟨rfl | ⟨hmem, hnv⟩, hnu⟩
    · exact Or.inl rfl
    · exact Or.inr ⟨hmem, hnu, hnv⟩
  · rintro (rfl | ⟨hmem, hnu, hnv⟩)
    · exact ⟨Or.inl rfl, h⟩
    · exact ⟨Or.inr ⟨hmem, hnv⟩, hnu⟩

theorem missOf_sessionStep_of_touches {u v : IWindow} {st : WindowState}
    (h : touches u (mergedOf v st).1) :
    missOf u (sessionStep v st) =
      st.filter fun wc => ¬ touches u wc.1 ∧ ¬ touches v wc.1 := by
  ext wc
  simp only [missOf, sessionStep, Finset.mem_filter, Finset.mem_insert]
  constructor
  · rintro ⟨rfl | ⟨hmem, hnv⟩, hnu⟩
    · exact absurd h hnu
    · exact ⟨hmem, hnu, hnv⟩
  · rintro ⟨hmem, hnu, hnv⟩
    exact ⟨Or.inr ⟨hmem, hnv⟩, hnu⟩

/-- When the two inserted windows belong to separate components of the state,
the second merge step ignores everything the first one did. -/
theorem sessionStep_sessionStep_of_separate {u v : IWindow} {st : WindowState}
    (hun : ¬ touches u (mergedOf v st).1)
    (hsep : ∀ wc ∈ st, touches u wc.1 → ¬ touches v wc.1) :
    sessionStep u (sessionStep v st) =
      insert (mergedOf u st) (insert (mergedOf v st)
        (st.filter fun wc => ¬ touches u wc.1 ∧ ¬ touches v wc.1)) := by
  have hhits : hitsOf u (sessionStep v st) = hitsOf u st := by
    rw [hitsOf_sessionStep_of_not_touches hun]
    ext wc
    simp only [Finset.mem_filter, mem_hitsOf]
    constructor
    · rintro ⟨hmem, htu, _⟩
      exact ⟨hmem, htu⟩
    · rintro ⟨hmem, htu⟩
      exact ⟨hmem, htu, hsep wc hmem htu⟩
  have hM : mergedOf u (sessionStep v st) = mergedOf u st := by
    unfold mergedOf
    rw [hhits]
  rw [show sessionStep u (sessionStep v st) =
        insert (mergedOf u (sessionStep v st)) (missOf u (sessionStep v st))
      from rfl,
    hM, missOf_sessionStep_of_not_touches hun]

/-- When the two inserted windows end up in one component, the result of the
two merge steps is the single window spanning both of them and every open
window either of them touches. -/
theorem sessionStep_sessionStep_of_joined {u v : IWindow} {st : WindowState}
    (hv : v.start ≤ v.stop)
    (hJ : touches u v ∨ ∃ wc ∈ st, touches u wc.1 ∧ touches v wc.1) :
    sessionStep u (sessionStep v st) =
      insert
        (⟨(st.filter fun wc => touches u wc.1 ∨ touches v wc.1).fold min
            (min u.start v.start) fun wc => wc.1.start,
          (st.filter fun wc => touches u wc.1 ∨ touches v wc.1).fold max
            (max u.stop v.stop) fun wc => wc.1.stop⟩,
         2 + (st.filter fun wc => touches u wc.1 ∨ touches v wc.1).sum
            fun wc => wc.2)
        (st.filter fun wc => ¬ touches u wc.1 ∧ ¬ touches v wc.1) := by
  have htm : touches u (mergedOf v st).1 := by
    apply touches_mergedOf_of_touches
    rcases hJ with h | ⟨wc, hmem, h1, h2⟩
    · exact Or.inl h
    · exact Or.inr ⟨wc, mem_hitsOf.mpr ⟨hmem, h2⟩, h1⟩
  have hnotmem :
      mergedOf v st ∉ st.filter fun wc => touches u wc.1 ∧ ¬ touches v wc.1 := by
    intro hmem
    exact (Finset.mem_filter.mp hmem).2.2
      ⟨le_trans hv (le_mergedOf_stop v st),
       le_trans (mergedOf_start_le v st) hv⟩
  have hbig :
      (st.filter fun wc => touches u wc.1 ∨ touches v wc.1) =
        hitsOf v st ∪ st.filter fun wc => touches u wc.1 ∧ ¬ touches v wc.1 := by
    ext wc
    simp only [Finset.mem_filter, Finset.mem_union, mem_hitsOf]
    tauto
  have hdisj :
      Disjoint (hitsOf v st)
        (st.filter fun wc => touches u wc.1 ∧ ¬ touches v wc.1) := by
    rw [Finset.disjoint_left]
    intro a ha hb
    exact (Finset.mem_filter.mp hb).2.2 (mem_hitsOf.mp ha).2
  have hhits :
      hitsOf u (sessionStep v st) =
        insert (mergedOf v st)
          (st.filter fun wc => touches u wc.1 ∧ ¬ touches v wc.1) :=
    hitsOf_sessionStep_of_touches htm
  have hM : mergedOf u (sessionStep v st) =
      (⟨(st.filter fun wc => touches u wc.1 ∨ touches v wc.1).fold min
          (min u.start v.start) fun wc => wc.1.start,
        (st.filter fun wc => touches u wc.1 ∨ touches v wc.1).fold max
          (max u.stop v.stop) fun wc => wc.1.stop⟩,
       2 + (st.filter fun wc => touches u wc.1 ∨ touches v wc.1).sum
          fun wc => wc.2) := by
    apply pair_eq
    · apply IWindow.eq_of
      · rw [mergedOf_fst_start, hhits, Finset.fold_insert hnotmem,
          mergedOf_fst_start, hbig, min_comm u.start v.start,
          fold_min_union _ _ _ _ _ hdisj]
      · rw [mergedOf_fst_stop, hhits, Finset.fold_insert hnotmem,
          mergedOf_fst_stop, hbig, max_comm u.stop v.stop,
          fold_max_union _ _ _ _ _ hdisj]
    · rw [mergedOf_snd, hhits, Finset.sum_insert hnotmem, mergedOf_snd,
        hbig, Finset.sum_union hdisj]
      omega
  rw [show sessionStep u (sessionStep v st) =
        insert (mergedOf u (sessionStep v st)) (missOf u (sessionStep v st))
      from rfl,
    hM, missOf_sessionStep_of_touches htm]

/-- Two consecutive session-merge steps with nonempty windows commute. -/
theorem sessionStep_comm {u v : IWindow} {st : WindowState}
    (hu : u.start < u.stop) (hv : v.start < v.stop) :
    sessionStep u (sessionStep v st) = sessionStep v (sessionStep u st) := by
  by_cases hJ : touches u v ∨ ∃ wc ∈ st, touches u wc.1 ∧ touches v wc.1
  · have hJ' : touches v u ∨ ∃ wc ∈ st, touches v wc.1 ∧ touches u wc.1 := by
      rcases hJ with h | ⟨wc, hm, h1, h2⟩
      · exact Or.inl (touches_comm.mp h)
      · exact Or.inr ⟨wc, hm, h2, h1⟩
    rw [sessionStep_sessionStep_of_joined hv.le hJ,
      sessionStep_sessionStep_of_joined hu.le hJ']
    have hsets : (st.filter fun wc => touches v wc.1 ∨ touches u wc.1) =
        st.filter fun wc => touches u wc.1 ∨ touches v wc.1 := by
      ext wc
      simp only [Finset.mem_filter]
      tauto
    have hmiss : (st.filter fun wc => ¬ touches v wc.1 ∧ ¬ touches u wc.1) =
        st.filter fun wc => ¬ touches u wc.1 ∧ ¬ touches v wc.1 := by
      ext wc
      simp only [Finset.mem_filter]
      tauto
    rw [hsets, hmiss, min_comm v.start u.start, max_comm v.stop u.stop]
  · push_neg at hJ
    obtain ⟨hnt, hsep⟩ := hJ
    have hun : ¬ touches u (mergedOf v st).1 := by
      intro ht
      rcases touches_mergedOf_cases hu.le ht with h | ⟨wc, hwc, h⟩
      · exact hnt h
      · have hm := mem_hitsOf.mp hwc
        exact hsep wc hm.1 h hm.2
    have hvn : ¬ touches v (mergedOf u st).1 := by
      intro ht
      rcases touches_mergedOf_cases hv.le ht with h | ⟨wc, hwc, h⟩
      · exact hnt (touches_comm.mp h)
      · have hm := mem_hitsOf.mp hwc
        exact hsep wc hm.1 hm.2 h
    rw [sessionStep_sessionStep_of_separate hun hsep,
      sessionStep_sessionStep_of_separate hvn
        (fun wc hm htv htu => hsep wc hm htu htv)]
    have hmiss : (st.filter fun wc => ¬ touches v wc.1 ∧ ¬ touches u wc.1) =
        st.filter fun wc => ¬ touches u wc.1 ∧ ¬ touches v wc.1 := by
      ext wc
      simp only [Finset.mem_filter]
      tauto
    rw [hmiss, Finset.Insert.comm]

/-- Folding session-merge steps for the provisional windows `[t, t+G)` over a
list of timestamps is invariant under permutation of the list. -/
theorem foldl_session_perm (G : Int) (hG : 0 < G) {l₁ l₂ : List Int}
    (hp : l₁.Perm l₂) :
    ∀ st : WindowState,
      l₁.foldl (fun st t => sessionStep ⟨t, t + G⟩ st) st =
        l₂.foldl (fun st t => sessionStep ⟨t, t + G⟩ st) st := by
  induction hp with
  | nil => intro st; rfl
  | cons x p ih =>
    intro st
    simp only [List.foldl_cons]
    exact ih _
  | swap x y l =>
    intro st
    simp only [List.foldl_cons]
    have hx : (⟨x, x + G⟩ : IWindow).start < (⟨x, x + G⟩ : IWindow).stop := by
      show x < x + G
      omega
    have hy : (⟨y, y + G⟩ : IWindow).start < (⟨y, y + G⟩ : IWindow).stop := by
      show y < y + G
      omega
    rw [sessionStep_comm hx hy]
  | trans p₁ p₂ ih₁ ih₂ =>
    intro st
    exact (ih₁ st).trans (ih₂ st)

/-! ### Reducing the pipeline to the accumulator folds -/

theorem pipeline_state_eq (s : Strategy) (ts : List Int) :
    ∀ st : WindowState,
      ts.foldl (fun (acc : Accumulator) t => (acc.assign t).2)
          (⟨s, st, false⟩ : Accumulator) =
        (⟨s, ts.foldl (accumulate s) st, false⟩ : Accumulator) := by
  induction ts with
  | nil => intro st; rfl
  | cons t ts ih =>
    intro st
    simp only [List.foldl_cons]
    rw [show (Accumulator.assign ⟨s, st, false⟩ t).2 =
          ⟨s, accumulate s st t, false⟩ from rfl]
    exact ih _

theorem runPipeline_session (G : Int) (ts : List Int) :
    runPipeline (.session G) ts =
      ts.foldl (fun st t => sessionStep ⟨t, t + G⟩ st) ∅ := by
  unfold runPipeline newAccumulator
  rw [pipeline_state_eq]
  rfl

/-- The session pipeline yields the same final window state on any two
permutations of its input batch. -/
theorem runPipeline_session_perm (G : Int) (hG : 0 < G) {l₁ l₂ : List Int}
    (hp : l₁.Perm l₂) :
    runPipeline (.session G) l₁ = runPipeline (.session G) l₂ := by
  rw [runPipeline_session, runPipeline_session]
  exact foldl_session_perm G hG hp ∅

/-! ### Arithmetic facts about the fixed and sliding assigners -/

theorem mem_sliding_assign {W P t : Int} (hP : 0 < P) (w : IWindow) :
    w ∈ assignWindows (.sliding W P) t ↔
      ∃ k : Int, w = ⟨k * P, k * P + W⟩ ∧ k * P ≤ t ∧ t < k * P + W := by
  have ha : (t - W).fdiv P = (t - W) / P := Int.fdiv_eq_ediv _ hP.le
  have hb : t.fdiv P = t / P := Int.fdiv_eq_ediv _ hP.le
  have hF1 : ∀ k : Int, k * P ≤ t ↔ k ≤ t / P := fun k =>
    (Int.le_ediv_iff_mul_le hP).symm
  have hF2 : ∀ k : Int, t < k * P + W ↔ (t - W) / P < k := by
    intro k
    rw [Int.ediv_lt_iff_lt_mul hP]
    omega
  simp only [assignWindows, List.mem_map, List.mem_range, ha, hb]
  constructor
  · rintro ⟨i, hi, rfl⟩
    have hi' : (i : Int) < t / P - (t - W) / P := Int.lt_toNat.mp hi
    refine ⟨(t - W) / P + 1 + i, rfl, ?_, ?_⟩
    · rw [hF1]
      omega
    · rw [hF2]
      omega
  · rintro ⟨k, rfl, h1, h2⟩
    rw [hF1] at h1
    rw [hF2] at h2
    refine ⟨(k - ((t - W) / P + 1)).toNat, ?_, ?_⟩
    · rw [Int.toNat_lt_toNat (by omega)]
      omega
    · have hk : ((t - W) / P + 1 + ((k - ((t - W) / P + 1)).toNat : Int)) = k := by
        rw [Int.toNat_of_nonneg (by omega)]
        omega
      rw [hk]

theorem sliding_assign_length (W P t : Int) :
    (assignWindows (.sliding W P) t).length =
      (t.fdiv P - (t - W).fdiv P).toNat := by
  simp [assignWindows]

theorem sliding_assign_length_of_dvd (W P t : Int) (hW : 0 < W) (hP : 0 < P)
    (hd : P ∣ W) :
    ((assignWindows (.sliding W P) t).length : Int) = ceilDiv W P := by
  obtain ⟨m, rfl⟩ := hd
  have hm : 0 < m := by
    rcases le_or_lt m 0 with h | h
    · nlinarith
    · exact h
  have hsub : (t - P * m) / P = t / P - m := by
    rw [show t - P * m = t + -m * P by ring, Int.add_mul_ediv_right _ _ (by omega)]
    omega
  have hceil : ceilDiv (P * m) P = m := by
    unfold ceilDiv
    rw [show P * m + P - 1 = (P - 1) + m * P by ring,
      Int.add_mul_ediv_right _ _ (by omega),
      Int.ediv_eq_zero_of_lt (by omega) (by omega)]
    omega
  rw [sliding_assign_length, hceil,
    Int.fdiv_eq_ediv _ hP.le, Int.fdiv_eq_ediv _ hP.le, hsub,
    Int.toNat_of_nonneg (by omega)]
  omega

/-! ### The claims -/

/-- Claim C1: for the `Session(G)` strategy with `G > 0`, the final set of
windows and per-window record counts produced by running the assigner and
accumulator over a finite list of timestamped records is the same for every
permutation of the input; in particular, for `G = 30` and records at
timestamps 0, 20 and 100, every input order yields exactly the windows
`[0,50)` and `[100,130)` with counts 2 and 1. -/
theorem session_pipeline_order_independent (G : Int) (hG : 0 < G)
    (l₁ l₂ : List Int) (hp : l₁.Perm l₂) :
    runPipeline (.session G) l₁ = runPipeline (.session G) l₂ ∧
    ∀ l : List Int, l.Perm [0, 20, 100] →
      runPipeline (.session 30) l = {(⟨0, 50⟩, 2), (⟨100, 130⟩, 1)} := by
  refine ⟨runPipeline_session_perm G hG hp, fun l hl => ?_⟩
  rw [runPipeline_session_perm 30 (by omega) hl]
  decide

theorem session_pipeline_order_independent_witness :
    (0 : Int) < 30 ∧ ([100, 0, 20] : List Int).Perm [0, 20, 100] ∧
    (runPipeline (.session 30) [100, 0, 20] =
        runPipeline (.session 30) [0, 20, 100] ∧
      ∀ l : List Int, l.Perm [0, 20, 100] →
        runPipeline (.session 30) l = {(⟨0, 50⟩, 2), (⟨100, 130⟩, 1)}) :=
  ⟨by decide, by decide,
    session_pipeline_order_independent 30 (by decide) [100, 0, 20]
      [0, 20, 100] (by decide)⟩

/-- Claim C2 counterexample: the number of windows returned by the sliding
assigner is not always `ceil(W/P)` — for `W = 50`, `P = 30`, timestamp 29 it
returns 1 window while `ceil(50/30) = 2`; and for `W = 90`, `P = 30`,
timestamp 45 the returned windows are `[-30,60)`, `[0,90)`, `[30,120)`,
not the `[0,90)`, `[30,120)`, `[60,150)` enumerated by the spec's scenario:
`[60,150)` fails `k*P ≤ 45` while the window `[-30,60)` (absent from the
scenario) does contain 45. -/
theorem sliding_count_not_ceil :
    ((assignWindows (.sliding 50 30) 29).length : Int) ≠ ceilDiv 50 30 ∧
    (⟨60, 150⟩ : IWindow) ∉ assignWindows (.sliding 90 30) 45 ∧
    (⟨-30, 60⟩ : IWindow) ∈ assignWindows (.sliding 90 30) 45 := by
  decide

/-- Claim C2 (amended): for `Sliding(W, P)` with `W > 0` and `P > 0`, the
assigner applied to `t` returns exactly the windows `[k*P, k*P+W)` over all
integers `k` with `k*P ≤ t < k*P + W`; the number of returned windows equals
`ceil(W/P)` whenever `P` divides `W`; and for `W = 90`, `P = 30`, timestamp
45 the returned windows are `[-30,60)`, `[0,90)` and `[30,120)` (three
memberships, satisfying the boundary arithmetic `k*P ≤ 45 < k*P + 90`). -/
theorem sliding_assign_spec (W P t : Int) (hW : 0 < W) (hP : 0 < P) :
    (∀ w : IWindow, w ∈ assignWindows (.sliding W P) t ↔
        ∃ k : Int, w = ⟨k * P, k * P + W⟩ ∧ k * P ≤ t ∧ t < k * P + W) ∧
    (P ∣ W → ((assignWindows (.sliding W P) t).length : Int) = ceilDiv W P) ∧
    assignWindows (.sliding 90 30) 45 = [⟨-30, 60⟩, ⟨0, 90⟩, ⟨30, 120⟩] :=
  ⟨fun w => mem_sliding_assign hP w,
   fun hd => sliding_assign_length_of_dvd W P t hW hP hd,
   by decide⟩

theorem sliding_assign_spec_witness :
    (0 : Int) < 90 ∧ (0 : Int) < 30 ∧
    ((∀ w : IWindow, w ∈ assignWindows (.sliding 90 30) 45 ↔
        ∃ k : Int, w = ⟨k * 30, k * 30 + 90⟩ ∧ k * 30 ≤ 45 ∧ 45 < k * 30 + 90) ∧
      ((30 : Int) ∣ 90 →
        ((assignWindows (.sliding 90 30) 45).length : Int) = ceilDiv 90 30) ∧
      assignWindows (.sliding 90 30) 45 = [⟨-30, 60⟩, ⟨0, 90⟩, ⟨30, 120⟩]) :=
  ⟨by decide, by decide, sliding_assign_spec 90 30 45 (by decide) (by decide)⟩

/-- Claim C3: for `Fixed(W)` with `W > 0` and offset 0, the assigner applied
to any timestamp `t` returns exactly one window, namely
`[n*W, (n+1)*W)` with `n = floor(t/W)`, and `window.start ≤ t < window.end`
always holds. -/
theorem fixed_assign_exactly_one (W t : Int) (hW : 0 < W) :
    assignWindows (.fixed W) t = [fixedWindow W (t.fdiv W)] ∧
    (fixedWindow W (t.fdiv W)).start = t.fdiv W * W ∧
    (fixedWindow W (t.fdiv W)).stop = (t.fdiv W + 1) * W ∧
    (fixedWindow W (t.fdiv W)).start ≤ t ∧
    t < (fixedWindow W (t.fdiv W)).stop := by
  have he : t.fdiv W = t / W := Int.fdiv_eq_ediv t hW.le
  refine ⟨rfl, rfl, rfl, ?_, ?_⟩
  · show t.fdiv W * W ≤ t
    rw [he]
    exact Int.ediv_mul_le t (by omega)
  · show t < (t.fdiv W + 1) * W
    rw [he]
    exact Int.lt_ediv_add_one_mul_self t hW

theorem fixed_assign_exactly_one_witness :
    (0 : Int) < 30 ∧
    (assignWindows (.fixed 30) 45 = [fixedWindow 30 ((45 : Int).fdiv 30)] ∧
      (fixedWindow 30 ((45 : Int).fdiv 30)).start = (45 : Int).fdiv 30 * 30 ∧
      (fixedWindow 30 ((45 : Int).fdiv 30)).stop = ((45 : Int).fdiv 30 + 1) * 30 ∧
      (fixedWindow 30 ((45 : Int).fdiv 30)).start ≤ 45 ∧
      (45 : Int) < (fixedWindow 30 ((45 : Int).fdiv 30)).stop) :=
  ⟨by decide, fixed_assign_exactly_one 30 45 (by decide)⟩

/-- Claim C4: in the session accumulator, whenever two windows' intervals
overlap or are exactly adjacent (`touches`, shown equivalent to
"overlaps or abuts" for nonempty windows), they are merged into the single
interval `[min(starts), max(ends))`, and merging is re-applied transitively
until no further merge applies: after the step, every absorbed window is
gone, the merged window covers the provisional window and every absorbed
window with its endpoints drawn from them, and the resulting state is again
pairwise non-touching. -/
theorem session_merge_transitive (G t : Int) (st : WindowState)
    (hG : 0 < G) (hst : SepState st) :
    (∀ u v : IWindow, u.start < u.stop → v.start < v.stop →
        (touches u v ↔ overlaps u v ∨ abuts u v)) ∧
    SepState (sessionStep ⟨t, t + G⟩ st) ∧
    (∀ wc ∈ st, touches ⟨t, t + G⟩ wc.1 → wc ∉ sessionStep ⟨t, t + G⟩ st) ∧
    mergedOf ⟨t, t + G⟩ st ∈ sessionStep ⟨t, t + G⟩ st ∧
    (mergedOf ⟨t, t + G⟩ st).1.start ≤ t ∧
    t + G ≤ (mergedOf ⟨t, t + G⟩ st).1.stop ∧
    (∀ wc ∈ st, touches ⟨t, t + G⟩ wc.1 →
        (mergedOf ⟨t, t + G⟩ st).1.start ≤ wc.1.start ∧
          wc.1.stop ≤ (mergedOf ⟨t, t + G⟩ st).1.stop) ∧
    ((mergedOf ⟨t, t + G⟩ st).1.start = t ∨
      ∃ wc ∈ st, touches ⟨t, t + G⟩ wc.1 ∧
        (mergedOf ⟨t, t + G⟩ st).1.start = wc.1.start) ∧
    ((mergedOf ⟨t, t + G⟩ st).1.stop = t + G ∨
      ∃ wc ∈ st, touches ⟨t, t + G⟩ wc.1 ∧
        (mergedOf ⟨t, t + G⟩ st).1.stop = wc.1.stop) := by
  have hw : (⟨t, t + G⟩ : IWindow).start < (⟨t, t + G⟩ : IWindow).stop := by
    show t < t + G
    omega
  refine ⟨?_, sepState_sessionStep hw hst, ?_, Finset.mem_insert_self _ _,
    mergedOf_start_le _ st, le_mergedOf_stop _ st, ?_, ?_, ?_⟩
  · intro u v h1 h2
    unfold touches overlaps abuts
    rw [max_lt_iff, lt_min_iff, lt_min_iff]
    omega
  · intro wc hm ht
    exact hit_not_mem_sessionStep (mem_hitsOf.mpr ⟨hm, ht⟩)
  · intro wc hm ht
    exact ⟨mergedOf_start_le_of_mem (mem_hitsOf.mpr ⟨hm, ht⟩),
      le_mergedOf_stop_of_mem (mem_hitsOf.mpr ⟨hm, ht⟩)⟩
  · rcases mergedOf_start_attained ⟨t, t + G⟩ st with h | ⟨wc, hwc, h⟩
    · exact Or.inl h
    · have hm := mem_hitsOf.mp hwc
      exact Or.inr ⟨wc, hm.1, hm.2, h⟩
  · rcases mergedOf_stop_attained ⟨t, t + G⟩ st with h | ⟨wc, hwc, h⟩
    · exact Or.inl h
    · have hm := mem_hitsOf.mp hwc
      exact Or.inr ⟨wc, hm.1, hm.2, h⟩

/-- Claim C5: after `finalize()` has been invoked, every subsequent
`assign()` call on the same accumulator fails with `ClosedError` and leaves
the accumulator (in particular its window state) unchanged. -/
theorem assign_after_finalize_fails (acc : Accumulator) (t : Int) :
    ((acc.finalize.2).assign t).1 = some ClosedError.closed ∧
    ((acc.finalize.2).assign t).2 = acc.finalize.2 :=
  ⟨rfl, rfl⟩

/-- Claim C6: configuration fails with `ConfigError` if and only if a
strategy parameter is non-positive (`Fixed`: `W ≤ 0`; `Sliding`: `W ≤ 0` or
`P ≤ 0`; `Session`: `G ≤ 0`); in particular `Sliding` with period greater
than width (width 30, period 50) is accepted as a valid degenerate
configuration. -/
theorem config_error_iff_nonpositive :
    (∀ W : Int, checkConfig (.fixed W) = .error .badParam ↔ W ≤ 0) ∧
    (∀ W P : Int,
        checkConfig (.sliding W P) = .error .badParam ↔ W ≤ 0 ∨ P ≤ 0) ∧
    (∀ G : Int, checkConfig (.session G) = .error .badParam ↔ G ≤ 0) ∧
    checkConfig (.sliding 30 50) = .ok () := by
  refine ⟨fun W => ?_, fun W P => ?_, fun G => ?_, by rfl⟩
  · show (if W ≤ 0 then (.error .badParam : Except ConfigError Unit)
        else .ok ()) = .error .badParam ↔ W ≤ 0
    split <;> simp_all
  · show (if W ≤ 0 ∨ P ≤ 0 then (.error .badParam : Except ConfigError Unit)
        else .ok ()) = .error .badParam ↔ W ≤ 0 ∨ P ≤ 0
    split <;> simp_all
  · show (if G ≤ 0 then (.error .badParam : Except ConfigError Unit)
        else .ok ()) = .error .badParam ↔ G ≤ 0
    split <;> simp_all

/-- Claim C7: for every `W > 0` the fixed windows `[n*W, (n+1)*W)` over all
integers `n` tile the timeline: every timestamp lies in the window indexed by
`floor(t/W)`, that index is the only one whose window contains `t`, and any
two distinct windows of the family are disjoint. -/
theorem fixed_windows_tile (W : Int) (hW : 0 < W) :
    (∀ t : Int, (fixedWindow W (t.fdiv W)).start ≤ t ∧
        t < (fixedWindow W (t.fdiv W)).stop) ∧
    (∀ t n : Int, (fixedWindow W n).start ≤ t → t < (fixedWindow W n).stop →
        n = t.fdiv W) ∧
    (∀ n m : Int, n ≠ m → ∀ t : Int,
        ¬((fixedWindow W n).start ≤ t ∧ t < (fixedWindow W n).stop ∧
          (fixedWindow W m).start ≤ t ∧ t < (fixedWindow W m).stop)) := by
  have he : ∀ t : Int, t.fdiv W = t / W := fun t => Int.fdiv_eq_ediv t hW.le
  have cover : ∀ t : Int, (fixedWindow W (t.fdiv W)).start ≤ t ∧
      t < (fixedWindow W (t.fdiv W)).stop := by
    intro t
    constructor
    · show t.fdiv W * W ≤ t
      rw [he]
      exact Int.ediv_mul_le t (by omega)
    · show t < (t.fdiv W + 1) * W
      rw [he]
      exact Int.lt_ediv_add_one_mul_self t hW
  have uniq : ∀ t n : Int, (fixedWindow W n).start ≤ t →
      t < (fixedWindow W n).stop → n = t.fdiv W := by
    intro t n h1 h2
    have h1' : n * W ≤ t := h1
    have h2' : t < (n + 1) * W := h2
    have hle : n ≤ t / W := (Int.le_ediv_iff_mul_le hW).mpr h1'
    have hlt : t / W < n + 1 := (Int.ediv_lt_iff_lt_mul hW).mpr h2'
    rw [he]
    exact le_antisymm hle (Int.lt_add_one_iff.mp hlt)
  refine ⟨cover, uniq, fun n m hne t hcontra => ?_⟩
  obtain ⟨h1, h2, h3, h4⟩ := hcontra
  exact hne ((uniq t n h1 h2).trans (uniq t m h3 h4).symm)

theorem fixed_windows_tile_witness :
    (0 : Int) < 30 ∧
    ((∀ t : Int, (fixedWindow 30 (t.fdiv 30)).start ≤ t ∧
        t < (fixedWindow 30 (t.fdiv 30)).stop) ∧
      (∀ t n : Int, (fixedWindow 30 n).start ≤ t →
        t < (fixedWindow 30 n).stop → n = t.fdiv 30) ∧
      (∀ n m : Int, n ≠ m → ∀ t : Int,
        ¬((fixedWindow 30 n).start ≤ t ∧ t < (fixedWindow 30 n).stop ∧
          (fixedWindow 30 m).start ≤ t ∧ t < (fixedWindow 30 m).stop))) :=
  ⟨by decide, fixed_windows_tile 30 (by decide)⟩

/-- Claim C8: running the full pipeline (assigner, accumulator, emitter with
count aggregation) with the `Fixed` strategy of width 30 over the input
timestamps `[5, 35, 40, 65]` emits exactly the pairs `([0,30), 1)`,
`([30,60), 2)` and `([60,90), 1)`. -/
theorem fixed_pipeline_end_to_end :
    runPipeline (.fixed 30) [5, 35, 40, 65] =
      {(⟨0, 30⟩, 1), (⟨30, 60⟩, 2), (⟨60, 90⟩, 1)} := by
  decide

theorem session_merge_transitive_witness :
    (0 : Int) < 30 ∧ SepState {((⟨0, 30⟩ : IWindow), 1)} ∧
    ((∀ u v : IWindow, u.start < u.stop → v.start < v.stop →
        (touches u v ↔ overlaps u v ∨ abuts u v)) ∧
      SepState (sessionStep ⟨20, 20 + 30⟩ {((⟨0, 30⟩ : IWindow), 1)}) ∧
      (∀ wc ∈ ({((⟨0, 30⟩ : IWindow), 1)} : WindowState),
        touches ⟨20, 20 + 30⟩ wc.1 →
          wc ∉ sessionStep ⟨20, 20 + 30⟩ {((⟨0, 30⟩ : IWindow), 1)}) ∧
      mergedOf ⟨20, 20 + 30⟩ {((⟨0, 30⟩ : IWindow), 1)} ∈
        sessionStep ⟨20, 20 + 30⟩ {((⟨0, 30⟩ : IWindow), 1)} ∧
      (mergedOf ⟨20, 20 + 30⟩ {((⟨0, 30⟩ : IWindow), 1)}).1.start ≤ 20 ∧
      20 + 30 ≤ (mergedOf ⟨20, 20 + 30⟩ {((⟨0, 30⟩ : IWindow), 1)}).1.stop ∧
      (∀ wc ∈ ({((⟨0, 30⟩ : IWindow), 1)} : WindowState),
        touches ⟨20, 20 + 30⟩ wc.1 →
          (mergedOf ⟨20, 20 + 30⟩
              {((⟨0, 30⟩ : IWindow), 1)}).1.start ≤ wc.1.start ∧
            wc.1.stop ≤
              (mergedOf ⟨20, 20 + 30⟩ {((⟨0, 30⟩ : IWindow), 1)}).1.stop) ∧
      ((mergedOf ⟨20, 20 + 30⟩ {((⟨0, 30⟩ : IWindow), 1)}).1.start = 20 ∨
        ∃ wc ∈ ({((⟨0, 30⟩ : IWindow), 1)} : WindowState),
          touches ⟨20, 20 + 30⟩ wc.1 ∧
            (mergedOf ⟨20, 20 + 30⟩
              {((⟨0, 30⟩ : IWindow), 1)}).1.start = wc.1.start) ∧
      ((mergedOf ⟨20, 20 + 30⟩ {((⟨0, 30⟩ : IWindow), 1)}).1.stop = 20 + 30 ∨
        ∃ wc ∈ ({((⟨0, 30⟩ : IWindow), 1)} : WindowState),
          touches ⟨20, 20 + 30⟩ wc.1 ∧
            (mergedOf ⟨20, 20 + 30⟩
              {((⟨0, 30⟩ : IWindow), 1)}).1.stop = wc.1.stop)) :=
  ⟨by decide, by decide,
    session_merge_transitive 30 20 {((⟨0, 30⟩ : IWindow), 1)}
      (by decide) (by decide)⟩

/-! ### The partition-by-ratio function of rwData.ipynb -/

/-- The cumulative-total loop returns within the list whenever the bucket is
below the grand total: the trailing fallback return is unreachable. -/
theorem split_loop_returns (bucket : Int) :
    ∀ (ratios : List Int) (total : Int) (i : Nat), ratios ≠ [] →
      bucket < total + ratios.sum →
      ∃ j : Nat, split_dataset_loop bucket total i ratios = some j ∧
        j < i + ratios.length := by
  intro ratios
  induction ratios with
  | nil =>
    intro _ _ h _
    exact absurd rfl h
  | cons part rest ih =>
    intro total i _ hlt
    rw [List.sum_cons] at hlt
    by_cases h : bucket < total + part
    · refine ⟨i, ?_, by simp⟩
      rw [split_dataset_loop, if_pos h]
    · rcases rest with _ | ⟨part2, rest2⟩
      · simp only [List.sum_nil, Int.add_zero] at hlt
        omega
      · obtain ⟨j, hj, hjl⟩ :=
          ih (total + part) (i + 1) (by simp) (by omega)
        refine ⟨j, ?_, by simp at hjl ⊢; omega⟩
        rw [split_dataset_loop, if_neg h]
        exact hj

/-- Claim C9: for every plant element and every ratio list whose length
equals `num_partitions` and whose sum is positive, `split_dataset` returns an
index `i` with `0 ≤ i ≤ num_partitions - 1` (the return type `ℕ` carries
`0 ≤ i`); because the bucket is strictly below `sum(ratio)`, the
cumulative-total loop always returns and the trailing fallback return of
`len(ratio) - 1` is unreachable. -/
theorem split_dataset_in_range (plantOrds : List Nat) (num_partitions : Nat)
    (ratios : List Int) (hlen : num_partitions = ratios.length)
    (hsum : 0 < ratios.sum) :
    ∃ i : Nat,
      split_dataset_loop
        (Int.fmod ((plantOrds.map fun (c : Nat) => (c : Int)).sum) ratios.sum) 0 0
        ratios = some i ∧
      split_dataset plantOrds num_partitions ratios = some i ∧
      i ≤ num_partitions - 1 := by
  have hne : ratios ≠ [] := by
    intro h
    rw [h] at hsum
    simp at hsum
  have hmod :
      Int.fmod ((plantOrds.map fun (c : Nat) => (c : Int)).sum) ratios.sum <
        ratios.sum := by
    rw [Int.fmod_eq_emod _ hsum.le]
    exact Int.emod_lt_of_pos _ hsum
  obtain ⟨j, hj, hjl⟩ :=
    split_loop_returns
      (Int.fmod ((plantOrds.map fun (c : Nat) => (c : Int)).sum) ratios.sum)
      ratios 0 0 hne (by omega)
  refine ⟨j, hj, ?_, by omega⟩
  unfold split_dataset
  rw [if_pos hlen]
  show (match
      split_dataset_loop
        (Int.fmod ((plantOrds.map fun (c : Nat) => (c : Int)).sum) ratios.sum) 0 0
        ratios with
    | some i => some i
    | none => some (ratios.length - 1)) = some j
  rw [hj]

theorem split_dataset_in_range_witness :
    (2 = ([8, 2] : List Int).length) ∧ (0 : Int) < ([8, 2] : List Int).sum ∧
    (∃ i : Nat,
      split_dataset_loop
        (Int.fmod ((([65, 66] : List Nat).map fun (c : Nat) => (c : Int)).sum)
          ([8, 2] : List Int).sum) 0 0 [8, 2] = some i ∧
      split_dataset [65, 66] 2 [8, 2] = some i ∧
      i ≤ 2 - 1) :=
  ⟨by decide, by decide,
    split_dataset_in_range [65, 66] 2 [8, 2] (by decide) (by decide)⟩

/-! ### The SplitWords DoFn of beamParDo.ipynb -/

theorem pySplitFuel_ne_nil (sep : List Char) :
    ∀ (fuel : Nat) (s : List Char), pySplitFuel sep fuel s ≠ [] := by
  intro fuel
  induction fuel with
  | zero =>
    intro s
    cases s <;> simp [pySplitFuel]
  | succ n ih =>
    intro s
    cases s with
    | nil => simp [pySplitFuel]
    | cons c rest =>
      rw [pySplitFuel]
      by_cases hpre : startsWith sep (c :: rest)
      · rw [if_pos hpre]
        simp
      · rw [if_neg hpre]
        rcases hres : pySplitFuel sep n rest with _ | ⟨w, ws⟩
        · exact absurd hres (ih rest)
        · simp

theorem intercalate_cons_of_ne_nil (sep a : List Char) {l : List (List Char)}
    (h : l ≠ []) :
    List.intercalate sep (a :: l) = a ++ sep ++ List.intercalate sep l := by
  rcases l with _ | ⟨b, l'⟩
  · exact absurd rfl h
  · simp [List.intercalate, List.append_assoc]

/-- Joining the pieces produced by `pySplitFuel` with the separator
reconstructs the input (Python's `sep.join(text.split(sep)) == text`), for a
nonempty separator and adequate fuel. -/
theorem intercalate_pySplitFuel (sep : List Char) (hsep : sep ≠ []) :
    ∀ (fuel : Nat) (s : List Char), s.length ≤ fuel →
      List.intercalate sep (pySplitFuel sep fuel s) = s := by
  intro fuel
  induction fuel with
  | zero =>
    intro s hs
    have hnil : s = [] := List.eq_nil_of_length_eq_zero (Nat.le_zero.mp hs)
    subst hnil
    simp [pySplitFuel, List.intercalate]
  | succ n ih =>
    intro s hs
    cases s with
    | nil => simp [pySplitFuel, List.intercalate]
    | cons c rest =>
      rw [pySplitFuel]
      by_cases hpre : startsWith sep (c :: rest)
      · rw [if_pos hpre]
        have hlen : (rest.drop (sep.length - 1)).length ≤ n := by
          rw [List.length_drop]
          simp only [List.length_cons] at hs
          omega
        rw [intercalate_cons_of_ne_nil sep [] (pySplitFuel_ne_nil sep n _),
          ih _ hlen, List.nil_append]
        have htake : (c :: rest).take sep.length = sep :=
          of_decide_eq_true hpre
        have hsplit := List.take_append_drop sep.length (c :: rest)
        rcases sep with _ | ⟨c0, sep'⟩
        · exact absurd rfl hsep
        · rw [htake] at hsplit
          simp only [List.length_cons, Nat.add_sub_cancel]
          simp only [List.length_cons] at hsplit
          rw [List.drop_succ_cons] at hsplit
          exact hsplit
      · rw [if_neg hpre]
        rcases hres : pySplitFuel sep n rest with _ | ⟨w, ws⟩
        · exact absurd hres (pySplitFuel_ne_nil sep n rest)
        · have ihr : List.intercalate sep (w :: ws) = rest := by
            rw [← hres]
            exact ih rest (by simp only [List.length_cons] at hs; omega)
          rcases ws with _ | ⟨v, vs⟩
          · simp only [List.intercalate, List.intersperse_single,
              List.flatten, List.append_nil] at ihr ⊢
            rw [ihr]
          · rw [intercalate_cons_of_ne_nil sep (c :: w) (by simp)]
            rw [intercalate_cons_of_ne_nil sep w (by simp)] at ihr
            rw [← ihr]
            simp

/-- Claim C10 counterexample: for the empty delimiter, `SplitWords` does not
emit `text.split(d)` — Python's `str.split` raises `ValueError` on an empty
separator, so nothing is emitted at all. -/
theorem splitwords_empty_delimiter :
    SplitWords.process ⟨[]⟩ ['a', 'b', 'c'] = none :=
  rfl

/-- Claim C10 (amended): for every input string and every nonempty delimiter
`d`, `ParDo(SplitWords(d))` emits exactly the elements of `text.split(d)` in
order (at least one element, even for empty input), and joining the emitted
elements with `d` reconstructs the original input string. -/
theorem splitwords_split_roundtrip (d text : List Char) (hd : d ≠ []) :
    SplitWords.process ⟨d⟩ text = some (pySplit d text) ∧
    pySplit d text ≠ [] ∧
    List.intercalate d (pySplit d text) = text := by
  refine ⟨?_, pySplitFuel_ne_nil d text.length text,
    intercalate_pySplitFuel d hd text.length text le_rfl⟩
  unfold SplitWords.process
  rw [if_neg hd]

theorem splitwords_split_roundtrip_witness :
    ([','] : List Char) ≠ [] ∧
    pySplit [','] ['a', 'b', ',', 'c'] = [['a', 'b'], ['c']] ∧
    (SplitWords.process ⟨[',']⟩ ['a', 'b', ',', 'c'] =
        some (pySplit [','] ['a', 'b', ',', 'c']) ∧
      pySplit [','] ['a', 'b', ',', 'c'] ≠ [] ∧
      List.intercalate [','] (pySplit [','] ['a', 'b', ',', 'c']) =
        ['a', 'b', ',', 'c']) :=
  ⟨by decide, by decide,
    splitwords_split_roundtrip [','] ['a', 'b', ',', 'c'] (by decide)⟩

end TourOfBeam
